import Mathlib

/-
Verification of the `cel` textual data-interchange format library
(crates `celkit_core` and `celkit_string`) against its specification.

The embedding below follows the Rust source:
  * `src/celkit_core/src/core.rs`   — `Number`, `Value`, `Error` and its `Display`;
  * `src/celkit_string/src/encode.rs` — `escape_text`, the `mini` (compact)
    encoder and the `pretty` (width-aware) encoder.

Rust `String`s produced by the encoders are modelled as `List Char` (the
sequence of Unicode scalar values); width accounting therefore counts
characters, as §4.3 of the specification states ("Width accounting uses
character counts of the rendered strings").  On the ASCII output fragment
this coincides with Rust's byte-oriented `str::len`.

The two floating-point `Number` variants (`F32`, `F64`) are outside the
shallow embedding — native floating-point formatting is not shallowly
embeddable — so `Number` here is the ten exact-width integer variants.
Width ranges are not enforced on the carried integers because only the
`Display` rendering of a stored value is relevant to the claims.
-/

namespace Celkit

/-- Rendered text: a Rust `String` as its sequence of characters. -/
abbrev Str := List Char

/-- Coerce a Lean string literal to `Str`. -/
def lit (s : String) : Str := s.data

/-- Rust `str::trim_end`: remove trailing whitespace characters. -/
def trimEnd (s : Str) : Str := (s.reverse.dropWhile Char.isWhitespace).reverse

/-- The lines of a rendered string, splitting at every `'\n'`.
A string with no newline has exactly one line; a trailing newline
contributes a final empty line. -/
def splitNl : Str → List Str
  | [] => [[]]
  | c :: cs =>
    if c = '\n' then [] :: splitNl cs
    else (c :: (splitNl cs).headI) :: (splitNl cs).tail

/-- Rust `char::is_control`: Unicode general category Cc,
i.e. U+0000–U+001F and U+007F–U+009F. -/
def isControl (c : Char) : Bool := c.toNat < 0x20 || (0x7F ≤ c.toNat && c.toNat ≤ 0x9F)

/-- Rust `format!("{:04x}", n)`: lower-case hexadecimal, zero-padded to
at least four digits. -/
def hex4 (n : Nat) : Str :=
  let ds := Nat.toDigits 16 n
  List.replicate (4 - ds.length) '0' ++ ds

/-- Decimal rendering of an unsigned integer (Rust `u*::to_string`). -/
def natStr (n : Nat) : Str := Nat.toDigits 10 n

/-- Decimal rendering of a signed integer (Rust `i*::to_string`). -/
def intStr (i : Int) : Str := if i < 0 then '-' :: natStr i.natAbs else natStr i.toNat

/-- Rust `Number` (core.rs 4-18), restricted to the ten exact-width
integer variants; see the header comment for why `F32`/`F64` are omitted. -/
inductive Number where
  | u8 (n : Nat)
  | i8 (n : Int)
  | u16 (n : Nat)
  | i16 (n : Int)
  | u32 (n : Nat)
  | i32 (n : Int)
  | u64 (n : Nat)
  | i64 (n : Int)
  | u128 (n : Nat)
  | i128 (n : Int)
deriving DecidableEq

/-- Rust `Number::to_string` (core.rs 20-37): each width's natural
decimal rendering. -/
def Number.str : Number → Str
  | .u8 n => natStr n
  | .i8 n => intStr n
  | .u16 n => natStr n
  | .i16 n => intStr n
  | .u32 n => natStr n
  | .i32 n => intStr n
  | .u64 n => natStr n
  | .i64 n => intStr n
  | .u128 n => natStr n
  | .i128 n => intStr n

/-- Rust `Value` (core.rs 39-49).  `Object` and `Struct` carry a
`BTreeMap<String, Value>`; a `BTreeMap` is modelled as its sorted
association list (the order in which the Rust encoders iterate it).
`mapInsert` below models `BTreeMap::insert`. -/
inductive Value where
  | Null : Value
  | Boolean (b : Bool) : Value
  | Number (n : Number) : Value
  | Text (t : String) : Value
  | Array (a : List Value) : Value
  | Tuple (t : List Value) : Value
  | Object (o : List (String × Value)) : Value
  | Struct (name : String) (s : List (String × Value)) : Value

/-- Lexicographic order on character sequences.  Rust's `BTreeMap<String, _>`
orders keys by byte-wise comparison of their UTF-8 encodings, which agrees
with lexicographic comparison of Unicode scalar values. -/
def strLt : Str → Str → Bool
  | [], [] => false
  | [], _ :: _ => true
  | _ :: _, [] => false
  | x :: xs, y :: ys => x < y || (x = y && strLt xs ys)

/-- Model of `BTreeMap::insert` on the sorted association list: keeps keys
strictly increasing, replacing the value on an existing key. -/
def mapInsert (k : String) (v : Value) : List (String × Value) → List (String × Value)
  | [] => [(k, v)]
  | (k', v') :: rest =>
    if strLt k.data k'.data then (k, v) :: (k', v') :: rest
    else if k = k' then (k, v) :: rest
    else (k', v') :: mapInsert k v rest

/-- One character of `escape_text`'s match (encode.rs 7-19). -/
def escapeChar (c : Char) : Str :=
  if c = '\x08' then lit "\\b"
  else if c = '\x0C' then lit "\\f"
  else if c = '\n' then lit "\\n"
  else if c = '\r' then lit "\\r"
  else if c = '\t' then lit "\\t"
  else if c = '\\' then lit "\\\\"
  else if c = '"' then lit "\\\""
  else if isControl c then lit "\\u" ++ hex4 c.toNat
  else [c]

/-- Rust `escape_text` (encode.rs 3-23): escape every character of the
input in order. -/
def escape_text (input : String) : Str := (input.data.map escapeChar).flatten

end Celkit

namespace Celkit.mini

/- The compact (minified) encoder, `mini::Encoder::encode_value` and the
per-variant helpers it dispatches to (encode.rs 26-118). -/
mutual

/-- Compact `mini::Encoder::encode_value` (encode.rs 106-117).  The
`Struct` type name is dropped, exactly as in the source dispatch. -/
def encode_value : Value → Str
  | .Null => lit "null"
  | .Boolean b => if b then lit "true" else lit "false"
  | .Number n => n.str
  | .Text t => '"' :: escape_text t ++ ['"']
  | .Array a => '[' :: List.intercalate (lit ",") (encode_list a) ++ [']']
  | .Tuple t => '(' :: List.intercalate (lit ",") (encode_list t) ++ [')']
  | .Object o => '\x7b' :: List.intercalate (lit ",") (encode_entries o) ++ ['\x7d']
  | .Struct _ s => lit "@(" ++ List.intercalate (lit ",") (encode_fields s) ++ [')']

/-- Children of an `Array`/`Tuple`, each compactly encoded. -/
def encode_list : List Value → List Str
  | [] => []
  | v :: vs => encode_value v :: encode_list vs

/-- Object entries rendered as `"key":value` with the key escaped and
quoted (encode.rs 74-88). -/
def encode_entries : List (String × Value) → List Str
  | [] => []
  | (k, v) :: rest => ('"' :: escape_text k ++ '"' :: ':' :: encode_value v) :: encode_entries rest

/-- Struct fields rendered as `name=value` with the raw, unescaped field
name (encode.rs 90-104). -/
def encode_fields : List (String × Value) → List Str
  | [] => []
  | (k, v) :: rest => (k.data ++ '=' :: encode_value v) :: encode_fields rest

end

/-- The `"key":value` entry string of a single compact Object entry. -/
def entry (e : String × Value) : Str := '"' :: escape_text e.1 ++ '"' :: ':' :: encode_value e.2

end Celkit.mini

namespace Celkit.pretty

/-- Configuration of `pretty::Encoder` (encode.rs 127-160).  The defaults
set by `Encoder::new` are indent size 2, max line length 100 and trailing
comma enabled. -/
structure Config where
  indent_size : Nat
  max_line_length : Nat
  trailing_comma : Bool

/-- The default configuration installed by `pretty::Encoder::new`. -/
def Config.default : Config := ⟨2, 100, true⟩

/-- Rust `Encoder::indent` (encode.rs 168-170): `level * indent_size` spaces. -/
def indent (cfg : Config) (level : Nat) : Str := List.replicate (level * cfg.indent_size) ' '

/-- The running `single_line_length` contribution of the rendered children:
each child's length plus 2 for the `", "` separator after every
non-final child (encode.rs 202-214). -/
def sepLens : List Str → Nat
  | [] => 0
  | [x] => x.length
  | x :: y :: rest => x.length + 2 + sepLens (y :: rest)

/-- The greedy packing loop shared verbatim by `encode_array`,
`encode_tuple` and `encode_object` (encode.rs 242-269): walk the rendered
items carrying `current_line` (initially the bare next-level indent),
append an item when it fits or the line is still bare, otherwise flush the
trimmed line and start a new one; finally flush a non-bare last line.
Returns everything the loop appends to `output` after the `"[\n"`. -/
def packLines (cfg : Config) (next_indent : Str) : List Str → Str → Str
  | [], current_line =>
    if next_indent.length < current_line.length then trimEnd current_line ++ ['\n'] else []
  | item :: rest, current_line =>
    let formatted := item ++ (if !rest.isEmpty || cfg.trailing_comma then lit ", " else [])
    if current_line.length + formatted.length ≤ cfg.max_line_length
        || current_line.length ≤ next_indent.length then
      packLines cfg next_indent rest (current_line ++ formatted)
    else
      trimEnd current_line ++ '\n' :: packLines cfg next_indent rest (next_indent ++ formatted)

/-- Body shared by `encode_array`/`encode_tuple`/`encode_object` once the
children are rendered (encode.rs 193-274, 282-363, 371-456): the
single-line fit check with the comma allowance, then either the
single-line form or the multi-line greedy packing between the delimiter
pair. -/
def composite (cfg : Config) (opn cls : Char) (items : List Str) (depth : Nat) : Str :=
  let current_indent := indent cfg depth
  let next_indent := indent cfg (depth + 1)
  let single_line_length := 1 + sepLens items + 1
  let comma_allowance := if 0 < depth then 1 else 0
  if current_indent.length + single_line_length + comma_allowance ≤ cfg.max_line_length then
    opn :: List.intercalate (lit ", ") items ++ [cls]
  else
    opn :: '\n' :: (packLines cfg next_indent items next_indent ++ current_indent ++ [cls])

/-- The field loop of `pretty::Encoder::encode_struct` (encode.rs 483-503):
every field starts its own line regardless of length; each iteration
flushes the trimmed previous line, and a non-bare last line is flushed
after the loop. -/
def structLines (cfg : Config) (next_indent : Str) : List Str → Str → Str
  | [], current_line =>
    if next_indent.length < current_line.length then trimEnd current_line ++ ['\n'] else []
  | f :: rest, current_line =>
    let formatted := f ++ (if !rest.isEmpty || cfg.trailing_comma then lit ", " else [])
    trimEnd current_line ++ '\n' :: structLines cfg next_indent rest (next_indent ++ formatted)

/- The pretty encoder, `pretty::Encoder::encode_value` and the
per-variant helpers (encode.rs 162-523). -/
mutual

/-- Pretty `pretty::Encoder::encode_value` (encode.rs 511-522).  Children
render at `depth + 1`; empty composites short-circuit to their empty
delimiter pair; the `Struct` type name is dropped. -/
def encode_value (cfg : Config) : Value → Nat → Str
  | .Null, _ => lit "null"
  | .Boolean b, _ => if b then lit "true" else lit "false"
  | .Number n, _ => n.str
  | .Text t, _ => '"' :: escape_text t ++ ['"']
  | .Array a, depth =>
    if a.isEmpty then lit "[]"
    else composite cfg '[' ']' (encode_children cfg a (depth + 1)) depth
  | .Tuple t, depth =>
    if t.isEmpty then lit "()"
    else composite cfg '(' ')' (encode_children cfg t (depth + 1)) depth
  | .Object o, depth =>
    if o.isEmpty then lit "\x7b\x7d"
    else composite cfg '\x7b' '\x7d' (encode_entries cfg o (depth + 1)) depth
  | .Struct _ s, depth =>
    if s.isEmpty then lit "@()"
    else
      lit "@(" ++ structLines cfg (indent cfg (depth + 1)) (encode_fields cfg s (depth + 1))
        (indent cfg (depth + 1)) ++ indent cfg depth ++ [')']

/-- Children of an `Array`/`Tuple`, each pretty-encoded at the given depth. -/
def encode_children (cfg : Config) : List Value → Nat → List Str
  | [], _ => []
  | v :: vs, depth => encode_value cfg v depth :: encode_children cfg vs depth

/-- Object entries rendered as `"key": value` with the key escaped and
quoted (encode.rs 380-387). -/
def encode_entries (cfg : Config) : List (String × Value) → Nat → List Str
  | [], _ => []
  | (k, v) :: rest, depth =>
    ('"' :: escape_text k ++ '"' :: ':' :: ' ' :: encode_value cfg v depth)
      :: encode_entries cfg rest depth

/-- Struct fields rendered as `name = value` with the raw, unescaped
field name (encode.rs 467-477). -/
def encode_fields (cfg : Config) : List (String × Value) → Nat → List Str
  | [], _ => []
  | (k, v) :: rest, depth =>
    (k.data ++ ' ' :: '=' :: ' ' :: encode_value cfg v depth) :: encode_fields cfg rest depth

end

end Celkit.pretty

namespace Celkit

/-- Rust `Error` (core.rs 51-57). -/
structure Error where
  message : String
  context : Option String
  line : Option Nat
  column : Option Nat

/-- Rust `impl fmt::Display for Error` (core.rs 93-116): the positional
form when both `line` and `column` are present (with the context appended
on a second line when present), and the bare `Error:` form otherwise. -/
def Error.display (e : Error) : Str :=
  match e.line, e.column with
  | some line, some column =>
    lit "Parse error at line " ++ natStr line ++ lit ", column " ++ natStr column
      ++ lit ": " ++ e.message.data
      ++ (match e.context with
          | some ctx => '\n' :: lit "Context: " ++ ctx.data
          | none => [])
  | _, _ => lit "Error: " ++ e.message.data

/-- Absence of the two-character pattern space-then-newline: `pairsOK s`
holds when no `'\n'` in `s` is immediately preceded by `' '`.  Together
with a non-space final character this means no line of `s` ends in a
space. -/
def pairsOK : Str → Bool
  | [] => true
  | [_] => true
  | a :: b :: rest => !(a = ' ' && b = '\n') && pairsOK (b :: rest)

/-- Map `mid` over every element except the last, and `last` over the
last element. -/
def mapLast (mid last : α → β) : List α → List β
  | [] => []
  | [x] => [last x]
  | x :: y :: rest => mid x :: mapLast mid last (y :: rest)

/- Struct field names are emitted raw by both encoders (no escaping), so
statements about line structure need the recursive condition that every
struct field name in a value is newline-free. -/
mutual

/-- Every struct field name occurring anywhere inside the value is free
of `'\n'`.  Object keys are escaped by the encoders and need no such
condition; the struct type name is dropped and needs none either. -/
def namesNlFree : Value → Bool
  | .Null => true
  | .Boolean _ => true
  | .Number _ => true
  | .Text _ => true
  | .Array a => namesNlFreeList a
  | .Tuple t => namesNlFreeList t
  | .Object o => namesNlFreeEntries o
  | .Struct _ s => namesNlFreeFields s

/-- `namesNlFree` over the children of an `Array`/`Tuple`. -/
def namesNlFreeList : List Value → Bool
  | [] => true
  | v :: vs => namesNlFree v && namesNlFreeList vs

/-- `namesNlFree` over the values of an `Object` (keys are escaped). -/
def namesNlFreeEntries : List (String × Value) → Bool
  | [] => true
  | (_, v) :: rest => namesNlFree v && namesNlFreeEntries rest

/-- `namesNlFree` over the fields of a `Struct`: the raw field name must
contain no `'\n'`, and the field value must satisfy `namesNlFree`. -/
def namesNlFreeFields : List (String × Value) → Bool
  | [] => true
  | (k, v) :: rest => k.data.all (· != '\n') && namesNlFree v && namesNlFreeFields rest

end

end Celkit

namespace Celkit

theorem splitNl_nil : splitNl [] = [[]] := rfl

theorem splitNl_cons_nl (cs : Str) : splitNl ('\n' :: cs) = [] :: splitNl cs := by
  simp [splitNl]

theorem splitNl_cons_ne {c : Char} (cs : Str) (h : c ≠ '\n') :
    splitNl (c :: cs) = (c :: (splitNl cs).headI) :: (splitNl cs).tail := by
  simp [splitNl, h]

theorem splitNl_ne_nil : ∀ s : Str, splitNl s ≠ []
  | [] => by simp [splitNl]
  | c :: cs => by by_cases h : c = '\n' <;> simp [splitNl, h]

theorem splitNl_cons_eq (s : Str) :
    splitNl s = (splitNl s).headI :: (splitNl s).tail := by
  cases h : splitNl s with
  | nil => exact absurd h (splitNl_ne_nil s)
  | cons l ls => simp

theorem splitNl_append_nl : ∀ a b : Str, splitNl (a ++ '\n' :: b) = splitNl a ++ splitNl b
  | [], b => by simp [splitNl_cons_nl, splitNl_nil]
  | c :: cs, b => by
    by_cases h : c = '\n'
    · subst h
      simp [splitNl_cons_nl, splitNl_append_nl cs b]
    · have ih := splitNl_append_nl cs b
      rw [List.cons_append, splitNl_cons_ne _ h, splitNl_cons_ne _ h, ih]
      cases hcs : splitNl cs with
      | nil => exact absurd hcs (splitNl_ne_nil cs)
      | cons l ls => simp

theorem splitNl_of_not_mem : ∀ s : Str, '\n' ∉ s → splitNl s = [s]
  | [], _ => rfl
  | c :: cs, h => by
    have hc : c ≠ '\n' := fun hc => h (hc ▸ List.mem_cons_self c cs)
    have hcs : '\n' ∉ cs := fun hm => h (List.mem_cons_of_mem _ hm)
    rw [splitNl_cons_ne _ hc, splitNl_of_not_mem cs hcs]
    simp

theorem length_le_of_mem_splitNl : ∀ (s : Str) (l : Str), l ∈ splitNl s → l.length ≤ s.length
  | [], l, h => by simp [splitNl] at h; simp [h]
  | c :: cs, l, h => by
    by_cases hc : c = '\n'
    · subst hc
      rw [splitNl_cons_nl] at h
      rcases List.mem_cons.mp h with h | h
      · simp [h]
      · exact (length_le_of_mem_splitNl cs l h).trans (by simp)
    · rw [splitNl_cons_ne _ hc] at h
      rcases List.mem_cons.mp h with h | h
      · subst h
        have : (splitNl cs).headI ∈ splitNl cs := by
          rw [splitNl_cons_eq cs]; exact List.mem_cons_self _ _
        have := length_le_of_mem_splitNl cs _ this
        simpa using this
      · have hmem : l ∈ splitNl cs := by
          rw [splitNl_cons_eq cs]; exact List.mem_cons_of_mem _ h
        exact (length_le_of_mem_splitNl cs l hmem).trans (by simp)

end Celkit

namespace Celkit

theorem trimEnd_append_ws (s : Str) :
    s = trimEnd s ++ (s.reverse.takeWhile Char.isWhitespace).reverse ∧
      ∀ c ∈ (s.reverse.takeWhile Char.isWhitespace).reverse, c.isWhitespace := by
  constructor
  · rw [trimEnd, ← List.reverse_append, List.takeWhile_append_dropWhile, List.reverse_reverse]
  · intro c hc
    rw [List.mem_reverse] at hc
    exact List.mem_takeWhile_imp hc

theorem trimEnd_length_le (s : Str) : (trimEnd s).length ≤ s.length := by
  conv_rhs => rw [(trimEnd_append_ws s).1]
  simp

theorem head_dropWhile_false {p : Char → Bool} :
    ∀ (l : Str) (c : Char), (l.dropWhile p).head? = some c → p c = false
  | [], c, h => by simp [List.dropWhile] at h
  | a :: t, c, h => by
    rw [List.dropWhile_cons] at h
    by_cases hp : p a
    · simp [hp] at h
      exact head_dropWhile_false t c h
    · simp [hp] at h
      subst h
      simpa using hp

theorem trimEnd_getLast_not_ws (s : Str) (c : Char) (h : (trimEnd s).getLast? = some c) :
    c.isWhitespace = false := by
  unfold trimEnd at h
  rw [List.getLast?_reverse] at h
  exact head_dropWhile_false _ _ h

theorem trimEnd_replicate_space (n : Nat) : trimEnd (List.replicate n ' ') = [] := by
  unfold trimEnd
  rw [List.reverse_replicate]
  rw [List.dropWhile_eq_nil_iff.mpr]
  · rfl
  · intro c hc
    rw [List.eq_of_mem_replicate hc]
    rfl

theorem pairsOK_tail {c : Char} {s : Str} (h : pairsOK (c :: s) = true) : pairsOK s = true := by
  cases s with
  | nil => rfl
  | cons y t =>
    unfold pairsOK at h
    exact (Bool.and_eq_true_iff.mp h).2

theorem pairsOK_cons_cons {a b : Char} {t : Str} :
    pairsOK (a :: b :: t) = true ↔ ¬(a = ' ' ∧ b = '\n') ∧ pairsOK (b :: t) = true := by
  have heq : pairsOK (a :: b :: t) = (!(a = ' ' && b = '\n') && pairsOK (b :: t)) := rfl
  rw [heq, Bool.and_eq_true, Bool.not_eq_true', Bool.and_eq_false_iff]
  simp only [decide_eq_false_iff_not, decide_eq_true_eq]
  tauto

theorem pairsOK_append : ∀ a b : Str, pairsOK a = true → pairsOK b = true →
    (a.getLast? = some ' ' → b.head? ≠ some '\n') → pairsOK (a ++ b) = true
  | [], b, _, hb, _ => hb
  | [x], b, _, hb, hj => by
    cases b with
    | nil => rfl
    | cons y t =>
      rw [List.singleton_append, pairsOK_cons_cons]
      refine ⟨?_, hb⟩
      rintro ⟨hx, hy⟩
      exact hj (by simp [hx]) (by simp [hy])
  | x :: y :: t, b, ha, hb, hj => by
    rw [List.cons_append, List.cons_append, pairsOK_cons_cons]
    rw [pairsOK_cons_cons] at ha
    refine ⟨ha.1, ?_⟩
    rw [← List.cons_append]
    refine pairsOK_append (y :: t) b ha.2 hb ?_
    intro hl
    exact hj (by rwa [List.getLast?_cons_cons])

theorem pairsOK_of_not_mem_nl : ∀ s : Str, '\n' ∉ s → pairsOK s = true
  | [], _ => rfl
  | [_], _ => rfl
  | a :: b :: t, h => by
    rw [pairsOK_cons_cons]
    constructor
    · rintro ⟨-, hb⟩
      exact h (by simp [hb])
    · exact pairsOK_of_not_mem_nl (b :: t) fun hm => h (List.mem_cons_of_mem _ hm)

theorem pairsOK_prefix : ∀ a b : Str, pairsOK (a ++ b) = true → pairsOK a = true
  | [], _, _ => rfl
  | [_], _, _ => rfl
  | x :: y :: t, b, h => by
    rw [List.cons_append, List.cons_append, pairsOK_cons_cons] at h
    rw [pairsOK_cons_cons]
    exact ⟨h.1, pairsOK_prefix (y :: t) b h.2⟩

end Celkit

namespace Celkit

theorem lines_no_space_end : ∀ s : Str, pairsOK s = true → s.getLast? ≠ some ' ' →
    ∀ l ∈ splitNl s, l.getLast? ≠ some ' '
  | [], _, _, l, hl => by
    simp [splitNl] at hl
    simp [hl]
  | c :: cs, hp, hlast, l, hl => by
    by_cases hc : c = '\n'
    · subst hc
      rw [splitNl_cons_nl] at hl
      rcases List.mem_cons.mp hl with h | h
      · simp [h]
      · cases cs with
        | nil => simp [splitNl] at h; simp [h]
        | cons c2 t =>
          refine lines_no_space_end (c2 :: t) (pairsOK_tail hp) ?_ l h
          rwa [List.getLast?_cons_cons] at hlast
    · rw [splitNl_cons_ne _ hc] at hl
      rcases List.mem_cons.mp hl with h | h
      · subst h
        cases hl0 : (splitNl cs).headI with
        | nil =>
          cases cs with
          | nil => simpa using hlast
          | cons c2 t =>
            by_cases hc2 : c2 = '\n'
            · subst hc2
              rw [pairsOK_cons_cons] at hp
              simp only [List.getLast?_singleton, ne_eq, Option.some_inj]
              intro hcsp
              exact hp.1 ⟨hcsp, rfl⟩
            · rw [splitNl_cons_ne _ hc2] at hl0
              simp at hl0
        | cons d ds =>
          cases cs with
          | nil => simp [splitNl] at hl0
          | cons c2 t =>
            have hmem : (splitNl (c2 :: t)).headI ∈ splitNl (c2 :: t) := by
              rw [splitNl_cons_eq (c2 :: t)]
              exact List.mem_cons_self _ _
            have hrec := lines_no_space_end (c2 :: t) (pairsOK_tail hp)
              (by rwa [List.getLast?_cons_cons] at hlast) _ hmem
            rw [hl0] at hrec
            rwa [List.getLast?_cons_cons]
      · have hmem : l ∈ splitNl cs := by
          rw [splitNl_cons_eq cs]
          exact List.mem_cons_of_mem _ h
        cases cs with
        | nil => simp [splitNl] at h
        | cons c2 t =>
          exact lines_no_space_end (c2 :: t) (pairsOK_tail hp)
            (by rwa [List.getLast?_cons_cons] at hlast) l hmem

end Celkit

namespace Celkit

theorem intercalate_nil (s : Str) : List.intercalate s ([] : List Str) = [] := rfl

theorem intercalate_single (s x : Str) : List.intercalate s [x] = x := by
  simp [List.intercalate, List.intersperse]

theorem intercalate_cons₂ (s x y : Str) (t : List Str) :
    List.intercalate s (x :: y :: t) = x ++ s ++ List.intercalate s (y :: t) := by
  simp [List.intercalate, List.intersperse]

theorem mem_intercalate {c : Char} (sep : Str) :
    ∀ items : List Str, c ∈ List.intercalate sep items → c ∈ sep ∨ ∃ x ∈ items, c ∈ x
  | [], h => by simp [intercalate_nil] at h
  | [x], h => by
    rw [intercalate_single] at h
    exact Or.inr ⟨x, by simp, h⟩
  | x :: y :: t, h => by
    rw [intercalate_cons₂] at h
    rcases List.mem_append.mp h with h1 | h1
    · rcases List.mem_append.mp h1 with h2 | h2
      · exact Or.inr ⟨x, by simp, h2⟩
      · exact Or.inl h2
    · rcases mem_intercalate sep (y :: t) h1 with h2 | ⟨z, hz, hc⟩
      · exact Or.inl h2
      · exact Or.inr ⟨z, List.mem_cons_of_mem _ hz, hc⟩

theorem length_intercalate_comma_space :
    ∀ items : List Str, (List.intercalate (lit ", ") items).length = pretty.sepLens items
  | [] => rfl
  | [x] => by rw [intercalate_single]; rfl
  | x :: y :: t => by
    rw [intercalate_cons₂]
    have ih := length_intercalate_comma_space (y :: t)
    simp only [List.length_append, ih]
    show x.length + 2 + _ = _
    rfl

theorem sepLens_closed : ∀ items : List Str, items ≠ [] →
    pretty.sepLens items = (items.map List.length).sum + 2 * (items.length - 1)
  | [], h => absurd rfl h
  | [x], _ => by simp [pretty.sepLens]
  | x :: y :: t, _ => by
    have ih := sepLens_closed (y :: t) (by simp)
    show x.length + 2 + pretty.sepLens (y :: t) = _
    rw [ih]
    simp [Nat.mul_sub, Nat.left_distrib]
    omega

theorem digitChar_ne_nl_space : ∀ n : Nat, Nat.digitChar n ≠ '\n' ∧ Nat.digitChar n ≠ ' '
  | 0 => by decide
  | 1 => by decide
  | 2 => by decide
  | 3 => by decide
  | 4 => by decide
  | 5 => by decide
  | 6 => by decide
  | 7 => by decide
  | 8 => by decide
  | 9 => by decide
  | 10 => by decide
  | 11 => by decide
  | 12 => by decide
  | 13 => by decide
  | 14 => by decide
  | 15 => by decide
  | m + 16 => by
    unfold Nat.digitChar
    rw [if_neg (by omega : ¬(m + 16 = 0)), if_neg (by omega : ¬(m + 16 = 1)), if_neg (by omega : ¬(m + 16 = 2)), if_neg (by omega : ¬(m + 16 = 3)), if_neg (by omega : ¬(m + 16 = 4)), if_neg (by omega : ¬(m + 16 = 5)), if_neg (by omega : ¬(m + 16 = 6)), if_neg (by omega : ¬(m + 16 = 7)), if_neg (by omega : ¬(m + 16 = 8)), if_neg (by omega : ¬(m + 16 = 9)), if_neg (by omega : ¬(m + 16 = 10)), if_neg (by omega : ¬(m + 16 = 11)), if_neg (by omega : ¬(m + 16 = 12)), if_neg (by omega : ¬(m + 16 = 13)), if_neg (by omega : ¬(m + 16 = 14)), if_neg (by omega : ¬(m + 16 = 15))]
    decide

theorem toDigitsCore_mem (b : Nat) :
    ∀ (fuel n : Nat) (acc : List Char) (c : Char), c ∈ Nat.toDigitsCore b fuel n acc →
      c ∈ acc ∨ ∃ m, c = Nat.digitChar m
  | 0, _, _, _, h => Or.inl h
  | fuel + 1, n, acc, c, h => by
    unfold Nat.toDigitsCore at h
    by_cases hz : n / b = 0
    · simp only [hz, if_pos] at h
      rcases List.mem_cons.mp h with h1 | h1
      · exact Or.inr ⟨n % b, h1⟩
      · exact Or.inl h1
    · simp only [hz, if_neg, if_false] at h
      rcases toDigitsCore_mem b fuel (n / b) _ c h with h1 | h1
      · rcases List.mem_cons.mp h1 with h2 | h2
        · exact Or.inr ⟨n % b, h2⟩
        · exact Or.inl h2
      · exact Or.inr h1

theorem natStr_chars {n : Nat} {c : Char} (h : c ∈ natStr n) : c ≠ '\n' ∧ c ≠ ' ' := by
  unfold natStr Nat.toDigits at h
  rcases toDigitsCore_mem 10 (n + 1) n [] c h with h1 | ⟨m, rfl⟩
  · simp at h1
  · exact digitChar_ne_nl_space m

theorem intStr_chars {i : Int} {c : Char} (h : c ∈ intStr i) : c ≠ '\n' ∧ c ≠ ' ' := by
  unfold intStr at h
  by_cases hi : i < 0
  · simp only [hi, if_pos] at h
    rcases List.mem_cons.mp h with h1 | h1
    · subst h1; constructor <;> decide
    · exact natStr_chars h1
  · simp only [hi, if_neg, if_false] at h
    exact natStr_chars h

theorem numberStr_chars {n : Number} {c : Char} (h : c ∈ n.str) : c ≠ '\n' ∧ c ≠ ' ' := by
  cases n <;> first
    | exact natStr_chars h
    | exact intStr_chars h

end Celkit

namespace Celkit

theorem nl_not_mem_hex4 (n : Nat) : '\n' ∉ hex4 n := by
  unfold hex4
  intro h
  rcases List.mem_append.mp h with h1 | h1
  · have := List.eq_of_mem_replicate h1
    simp at this
  · unfold Nat.toDigits at h1
    rcases toDigitsCore_mem 16 (n + 1) n [] _ h1 with h2 | ⟨m, hm⟩
    · simp at h2
    · exact (digitChar_ne_nl_space m).1 hm.symm

theorem nl_not_mem_escapeChar (c : Char) : '\n' ∉ escapeChar c := by
  unfold escapeChar
  by_cases h1 : c = '\x08'
  · rw [if_pos h1]; decide
  by_cases h2 : c = '\x0C'
  · rw [if_neg h1, if_pos h2]; decide
  by_cases h3 : c = '\n'
  · rw [if_neg h1, if_neg h2, if_pos h3]; decide
  by_cases h4 : c = '\r'
  · rw [if_neg h1, if_neg h2, if_neg h3, if_pos h4]; decide
  by_cases h5 : c = '\t'
  · rw [if_neg h1, if_neg h2, if_neg h3, if_neg h4, if_pos h5]; decide
  by_cases h6 : c = '\\'
  · rw [if_neg h1, if_neg h2, if_neg h3, if_neg h4, if_neg h5, if_pos h6]; decide
  by_cases h7 : c = '"'
  · rw [if_neg h1, if_neg h2, if_neg h3, if_neg h4, if_neg h5, if_neg h6, if_pos h7]; decide
  by_cases h8 : isControl c
  · rw [if_neg h1, if_neg h2, if_neg h3, if_neg h4, if_neg h5, if_neg h6, if_neg h7, if_pos h8]
    intro hm
    rcases List.mem_append.mp hm with hm1 | hm1
    · revert hm1; decide
    · exact nl_not_mem_hex4 c.toNat hm1
  · rw [if_neg h1, if_neg h2, if_neg h3, if_neg h4, if_neg h5, if_neg h6, if_neg h7, if_neg h8]
    intro hm
    rw [List.mem_singleton] at hm
    exact h3 hm.symm

theorem nl_not_mem_escape_text (s : String) : '\n' ∉ escape_text s := by
  unfold escape_text
  intro h
  rcases List.mem_flatten.mp h with ⟨l, hl, hc⟩
  rcases List.mem_map.mp hl with ⟨c, -, rfl⟩
  exact nl_not_mem_escapeChar c hc

theorem mini_encode_list_eq : ∀ l : List Value, mini.encode_list l = l.map mini.encode_value
  | [] => rfl
  | v :: vs => by rw [mini.encode_list, mini_encode_list_eq vs, List.map_cons]

theorem mini_encode_entries_eq : ∀ o : List (String × Value),
    mini.encode_entries o = o.map mini.entry
  | [] => rfl
  | (k, v) :: rest => by
    rw [mini.encode_entries, mini_encode_entries_eq rest, List.map_cons]
    rfl

theorem mini_encode_fields_eq : ∀ fs : List (String × Value),
    mini.encode_fields fs = fs.map fun f => f.1.data ++ '=' :: mini.encode_value f.2
  | [] => rfl
  | (k, v) :: rest => by
    rw [mini.encode_fields, mini_encode_fields_eq rest, List.map_cons]

end Celkit

namespace Celkit

theorem all_ne_nl_of_all_bne {l : Str} (h : l.all (· != '\n') = true) : '\n' ∉ l := by
  intro hm
  have := List.all_eq_true.mp h _ hm
  simp at this

mutual

theorem c8_value : ∀ v : Value, namesNlFree v = true → '\n' ∉ mini.encode_value v
  | .Null, _ => by decide
  | .Boolean b, _ => by cases b <;> decide
  | .Number n, _ => by
    intro hm
    simp only [mini.encode_value] at hm
    exact (numberStr_chars hm).1 rfl
  | .Text t, _ => by
    intro hm
    simp only [mini.encode_value] at hm
    rcases List.mem_cons.mp hm with h1 | h1
    · simp at h1
    rcases List.mem_append.mp h1 with h2 | h2
    · exact nl_not_mem_escape_text t h2
    · revert h2; decide
  | .Array a, h => by
    intro hm
    simp only [mini.encode_value] at hm
    rcases List.mem_cons.mp hm with h1 | h1
    · simp at h1
    rcases List.mem_append.mp h1 with h2 | h2
    · rcases mem_intercalate _ _ h2 with h3 | ⟨x, hx, hcx⟩
      · revert h3; decide
      · exact c8_list a h x hx hcx
    · revert h2; decide
  | .Tuple t, h => by
    intro hm
    simp only [mini.encode_value] at hm
    rcases List.mem_cons.mp hm with h1 | h1
    · simp at h1
    rcases List.mem_append.mp h1 with h2 | h2
    · rcases mem_intercalate _ _ h2 with h3 | ⟨x, hx, hcx⟩
      · revert h3; decide
      · exact c8_list t h x hx hcx
    · revert h2; decide
  | .Object o, h => by
    intro hm
    simp only [mini.encode_value] at hm
    rcases List.mem_cons.mp hm with h1 | h1
    · simp at h1
    rcases List.mem_append.mp h1 with h2 | h2
    · rcases mem_intercalate _ _ h2 with h3 | ⟨x, hx, hcx⟩
      · revert h3; decide
      · exact c8_entries o h x hx hcx
    · revert h2; decide
  | .Struct _ s, h => by
    intro hm
    simp only [mini.encode_value] at hm
    rcases List.mem_append.mp hm with h1 | h1
    rcases List.mem_append.mp h1 with h2 | h2
    · revert h2; decide
    · rcases mem_intercalate _ _ h2 with h3 | ⟨x, hx, hcx⟩
      · revert h3; decide
      · exact c8_fields s h x hx hcx
    · revert h1; decide

theorem c8_list : ∀ l : List Value, namesNlFreeList l = true →
    ∀ s ∈ mini.encode_list l, '\n' ∉ s
  | [], _, s, hs => by simp [mini.encode_list] at hs
  | v :: vs, h, s, hs => by
    rw [namesNlFreeList, Bool.and_eq_true] at h
    simp only [mini.encode_list] at hs
    rcases List.mem_cons.mp hs with h1 | h1
    · subst h1
      exact c8_value v h.1
    · exact c8_list vs h.2 s h1

theorem c8_entries : ∀ o : List (String × Value), namesNlFreeEntries o = true →
    ∀ s ∈ mini.encode_entries o, '\n' ∉ s
  | [], _, s, hs => by simp [mini.encode_entries] at hs
  | (k, v) :: rest, h, s, hs => by
    rw [namesNlFreeEntries, Bool.and_eq_true] at h
    simp only [mini.encode_entries] at hs
    rcases List.mem_cons.mp hs with h1 | h1
    · subst h1
      intro hm
      rcases List.mem_cons.mp hm with h2 | h2
      · simp at h2
      rcases List.mem_append.mp h2 with h3 | h3
      · exact nl_not_mem_escape_text k h3
      rcases List.mem_cons.mp h3 with h4 | h4
      · simp at h4
      rcases List.mem_cons.mp h4 with h5 | h5
      · simp at h5
      · exact c8_value v h.1 h5
    · exact c8_entries rest h.2 s h1

theorem c8_fields : ∀ fs : List (String × Value), namesNlFreeFields fs = true →
    ∀ s ∈ mini.encode_fields fs, '\n' ∉ s
  | [], _, s, hs => by simp [mini.encode_fields] at hs
  | (k, v) :: rest, h, s, hs => by
    rw [namesNlFreeFields, Bool.and_eq_true] at h
    have hkv := h.1
    rw [Bool.and_eq_true] at hkv
    simp only [mini.encode_fields] at hs
    rcases List.mem_cons.mp hs with h1 | h1
    · subst h1
      intro hm
      rcases List.mem_append.mp hm with h3 | h3
      · exact all_ne_nl_of_all_bne hkv.1 h3
      rcases List.mem_cons.mp h3 with h4 | h4
      · simp at h4
      · exact c8_value v hkv.2 h4
    · exact c8_fields rest h.2 s h1

end

end Celkit

namespace Celkit

theorem pretty_encode_children_eq (cfg : pretty.Config) :
    ∀ (l : List Value) (d : Nat),
      pretty.encode_children cfg l d = l.map fun v => pretty.encode_value cfg v d
  | [], _ => rfl
  | v :: vs, d => by
    rw [pretty.encode_children, pretty_encode_children_eq cfg vs d, List.map_cons]

theorem pretty_encode_entries_eq (cfg : pretty.Config) :
    ∀ (o : List (String × Value)) (d : Nat),
      pretty.encode_entries cfg o d =
        o.map fun e => '"' :: escape_text e.1 ++ '"' :: ':' :: ' ' :: pretty.encode_value cfg e.2 d
  | [], _ => rfl
  | (k, v) :: rest, d => by
    rw [pretty.encode_entries, pretty_encode_entries_eq cfg rest d, List.map_cons]

theorem pretty_encode_fields_eq (cfg : pretty.Config) :
    ∀ (fs : List (String × Value)) (d : Nat),
      pretty.encode_fields cfg fs d =
        fs.map fun f => f.1.data ++ ' ' :: '=' :: ' ' :: pretty.encode_value cfg f.2 d
  | [], _ => rfl
  | (k, v) :: rest, d => by
    rw [pretty.encode_fields, pretty_encode_fields_eq cfg rest d, List.map_cons]

theorem formatted_length_le (item : Str) (sep : Str) (hsep : sep.length ≤ 2) :
    (item ++ sep).length ≤ item.length + 2 := by
  rw [List.length_append]
  omega

theorem packLines_lines_le (cfg : pretty.Config) (ni : Str) :
    ∀ (items : List Str) (cl tail : Str),
      (∀ it ∈ items, ni.length + it.length + 2 ≤ cfg.max_line_length) →
      cl.length ≤ cfg.max_line_length →
      (∀ l ∈ splitNl tail, l.length ≤ cfg.max_line_length) →
      ∀ l ∈ splitNl (pretty.packLines cfg ni items cl ++ tail), l.length ≤ cfg.max_line_length
  | [], cl, tail, _, hcl, htail, l, hl => by
    rw [pretty.packLines] at hl
    by_cases hflush : ni.length < cl.length
    · rw [if_pos hflush, List.append_assoc, List.singleton_append, splitNl_append_nl] at hl
      rcases List.mem_append.mp hl with h1 | h1
      · exact (length_le_of_mem_splitNl _ _ h1).trans ((trimEnd_length_le cl).trans hcl)
      · exact htail l h1
    · rw [if_neg hflush, List.nil_append] at hl
      exact htail l hl
  | item :: rest, cl, tail, hits, hcl, htail, l, hl => by
    rw [pretty.packLines] at hl
    set F := item ++ (if !rest.isEmpty || cfg.trailing_comma then lit ", " else []) with hF
    have hFlen : F.length ≤ item.length + 2 := by
      rw [hF]
      refine formatted_length_le item _ ?_
      split <;> simp [lit]
    have hitem := hits item (List.mem_cons_self _ _)
    by_cases hcond :
      (cl.length + F.length ≤ cfg.max_line_length || cl.length ≤ ni.length) = true
    · rw [if_pos hcond] at hl
      rw [Bool.or_eq_true, decide_eq_true_eq, decide_eq_true_eq] at hcond
      refine packLines_lines_le cfg ni rest (cl ++ F) tail
        (fun it hit => hits it (List.mem_cons_of_mem _ hit)) ?_ htail l hl
      rw [List.length_append]
      rcases hcond with hcond | hcond <;> omega
    · rw [if_neg hcond, List.append_assoc] at hl
      rw [show ('\n' :: pretty.packLines cfg ni rest (ni ++ F)) ++ tail
            = '\n' :: (pretty.packLines cfg ni rest (ni ++ F) ++ tail) from rfl] at hl
      rw [splitNl_append_nl] at hl
      rcases List.mem_append.mp hl with h1 | h1
      · exact (length_le_of_mem_splitNl _ _ h1).trans ((trimEnd_length_le cl).trans hcl)
      · refine packLines_lines_le cfg ni rest (ni ++ F) tail
          (fun it hit => hits it (List.mem_cons_of_mem _ hit)) ?_ htail l h1
        rw [List.length_append]
        omega

theorem indent_length (cfg : pretty.Config) (level : Nat) :
    (pretty.indent cfg level).length = level * cfg.indent_size := by
  simp [pretty.indent]

theorem indent_le_next (cfg : pretty.Config) (d : Nat) :
    (pretty.indent cfg d).length ≤ (pretty.indent cfg (d + 1)).length := by
  rw [indent_length, indent_length]
  exact Nat.mul_le_mul_right _ (Nat.le_succ d)

theorem nl_not_mem_indent (cfg : pretty.Config) (level : Nat) :
    '\n' ∉ pretty.indent cfg level := by
  intro h
  have := List.eq_of_mem_replicate h
  simp at this

theorem composite_lines_le (cfg : pretty.Config) (opn cls : Char) (items : List Str) (d : Nat)
    (hopn : opn ≠ '\n') (hcls : cls ≠ '\n') (hne : items ≠ [])
    (hits : ∀ it ∈ items,
      (pretty.indent cfg (d + 1)).length + it.length + 2 ≤ cfg.max_line_length) :
    ∀ l ∈ splitNl (pretty.composite cfg opn cls items d), l.length ≤ cfg.max_line_length := by
  intro l hl
  obtain ⟨item₀, hmem₀⟩ := List.exists_mem_of_ne_nil items hne
  have hit₀ := hits item₀ hmem₀
  have hci : (pretty.indent cfg d).length ≤ (pretty.indent cfg (d + 1)).length :=
    indent_le_next cfg d
  unfold pretty.composite at hl
  by_cases hfit : (pretty.indent cfg d).length + (1 + pretty.sepLens items + 1)
      + (if 0 < d then 1 else 0) ≤ cfg.max_line_length
  · rw [if_pos hfit] at hl
    have hlen := length_le_of_mem_splitNl _ _ hl
    rw [List.length_append, List.length_cons, List.length_singleton,
      length_intercalate_comma_space] at hlen
    have hallow : 0 ≤ (if 0 < d then 1 else 0) := Nat.zero_le _
    omega
  · rw [if_neg hfit] at hl
    rw [show (opn :: '\n'
          :: (pretty.packLines cfg (pretty.indent cfg (d + 1)) items (pretty.indent cfg (d + 1))
            ++ pretty.indent cfg d ++ [cls]))
        = [opn] ++ '\n'
          :: (pretty.packLines cfg (pretty.indent cfg (d + 1)) items (pretty.indent cfg (d + 1))
            ++ (pretty.indent cfg d ++ [cls])) from by simp] at hl
    rw [splitNl_append_nl] at hl
    rcases List.mem_append.mp hl with h1 | h1
    · rw [splitNl_of_not_mem [opn] (by simp [hopn.symm, eq_comm])] at h1
      rw [List.mem_singleton] at h1
      subst h1
      simp only [List.length_singleton]
      omega
    · refine packLines_lines_le cfg (pretty.indent cfg (d + 1)) items
        (pretty.indent cfg (d + 1)) (pretty.indent cfg d ++ [cls]) hits (by omega) ?_ l h1
      intro l2 hl2
      rw [splitNl_of_not_mem _ ?hnl] at hl2
      case hnl =>
        intro hm
        rcases List.mem_append.mp hm with hm1 | hm1
        · exact nl_not_mem_indent cfg d hm1
        · rw [List.mem_singleton] at hm1
          exact hcls hm1.symm
      rw [List.mem_singleton] at hl2
      subst hl2
      rw [List.length_append, List.length_singleton]
      omega

theorem composite_eq (cfg : pretty.Config) (opn cls : Char) (items : List Str) (d : Nat)
    (hne : items ≠ []) :
    pretty.composite cfg opn cls items d =
      if (pretty.indent cfg d).length + 1 + (items.map List.length).sum
          + 2 * (items.length - 1) + 1 + (if 0 < d then 1 else 0) ≤ cfg.max_line_length
      then opn :: List.intercalate (lit ", ") items ++ [cls]
      else opn :: '\n'
        :: (pretty.packLines cfg (pretty.indent cfg (d + 1)) items (pretty.indent cfg (d + 1))
          ++ pretty.indent cfg d ++ [cls]) := by
  unfold pretty.composite
  refine if_congr ?_ rfl rfl
  rw [sepLens_closed items hne]
  omega

end Celkit

namespace Celkit

theorem getLast_ne_of_forall : ∀ {s : Str} {c : Char}, (∀ x ∈ s, x ≠ c) → s.getLast? ≠ some c
  | [], c, _ => by simp
  | [x], c, h => by simpa using h x (by simp)
  | x :: y :: t, c, h => by
    rw [List.getLast?_cons_cons]
    exact getLast_ne_of_forall fun z hz => h z (List.mem_cons_of_mem _ hz)

theorem head_ne_of_forall {s : Str} {c : Char} (h : ∀ x ∈ s, x ≠ c) : s.head? ≠ some c := by
  cases s with
  | nil => simp
  | cons x t => simpa using h x (by simp)

theorem head_append_ne {a b : Str} {c : Char} (ha : a.head? ≠ some c) (hb : b.head? ≠ some c) :
    (a ++ b).head? ≠ some c := by
  cases a with
  | nil => simpa using hb
  | cons x t => simpa using ha

theorem pairsOK_cons {c : Char} {s : Str} (hs : pairsOK s = true)
    (h : c = ' ' → s.head? ≠ some '\n') : pairsOK (c :: s) = true := by
  cases s with
  | nil => rfl
  | cons y t =>
    rw [pairsOK_cons_cons]
    refine ⟨?_, hs⟩
    rintro ⟨hc, hy⟩
    exact h hc (by simp [hy])

theorem pairsOK_trimEnd {s : Str} (hs : pairsOK s = true) : pairsOK (trimEnd s) = true := by
  have h := (trimEnd_append_ws s).1
  exact pairsOK_prefix _ _ (h ▸ hs)

theorem trimEnd_getLast_ne_space (s : Str) : (trimEnd s).getLast? ≠ some ' ' := by
  intro h
  have := trimEnd_getLast_not_ws s ' ' h
  simp [Char.isWhitespace] at this

theorem pairsOK_append_trim_nl {s rest : Str} (hs : pairsOK s = true)
    (hrest : pairsOK rest = true) : pairsOK (trimEnd s ++ '\n' :: rest) = true := by
  refine pairsOK_append _ _ (pairsOK_trimEnd hs) ?_ ?_
  · exact pairsOK_cons hrest (by simp)
  · intro hl
    exact absurd hl (trimEnd_getLast_ne_space s)

theorem intercalate_pairsOK (sep : Str) (hsep : pairsOK sep = true)
    (hsh : sep.head? ≠ some '\n') :
    ∀ items : List Str, (∀ it ∈ items, pairsOK it = true ∧ it.head? ≠ some '\n') →
      pairsOK (List.intercalate sep items) = true ∧
        (List.intercalate sep items).head? ≠ some '\n'
  | [], _ => by
    rw [intercalate_nil]
    exact ⟨rfl, by simp⟩
  | [x], h => by
    rw [intercalate_single]
    exact h x (by simp)
  | x :: y :: t, h => by
    have hx := h x (by simp)
    have ih := intercalate_pairsOK sep hsep hsh (y :: t)
      fun it hit => h it (List.mem_cons_of_mem _ hit)
    rw [intercalate_cons₂, List.append_assoc]
    constructor
    · refine pairsOK_append _ _ hx.1 ?_ ?_
      · exact pairsOK_append _ _ hsep ih.1 fun _ => ih.2
      · intro hl
        exact head_append_ne hsh ih.2
    · exact head_append_ne hx.2 (head_append_ne hsh ih.2)

theorem packLines_pairs (cfg : pretty.Config) (ni : Str) (hni : pairsOK ni = true) :
    ∀ (items : List Str) (cl tail : Str),
      (∀ it ∈ items, pairsOK it = true ∧ it.head? ≠ some '\n') →
      pairsOK cl = true →
      pairsOK tail = true →
      pairsOK (pretty.packLines cfg ni items cl ++ tail) = true
  | [], cl, tail, _, hcl, htail => by
    rw [pretty.packLines]
    by_cases hflush : ni.length < cl.length
    · rw [if_pos hflush, List.append_assoc, List.singleton_append]
      exact pairsOK_append_trim_nl hcl htail
    · rw [if_neg hflush, List.nil_append]
      exact htail
  | item :: rest, cl, tail, hits, hcl, htail => by
    rw [pretty.packLines]
    set F := item ++ (if !rest.isEmpty || cfg.trailing_comma then lit ", " else []) with hF
    have hitem := hits item (List.mem_cons_self _ _)
    have hFpairs : pairsOK F = true := by
      rw [hF]
      refine pairsOK_append _ _ hitem.1 ?_ ?_
      · split <;> decide
      · intro hl
        split <;> simp [lit]
    have hFhead : F.head? ≠ some '\n' := by
      rw [hF]
      refine head_append_ne hitem.2 ?_
      split <;> simp [lit]
    by_cases hcond :
      (cl.length + F.length ≤ cfg.max_line_length || cl.length ≤ ni.length) = true
    · rw [if_pos hcond]
      refine packLines_pairs cfg ni hni rest (cl ++ F) tail
        (fun it hit => hits it (List.mem_cons_of_mem _ hit)) ?_ htail
      exact pairsOK_append _ _ hcl hFpairs fun _ => hFhead
    · rw [if_neg hcond, List.append_assoc]
      rw [show ('\n' :: pretty.packLines cfg ni rest (ni ++ F)) ++ tail
            = '\n' :: (pretty.packLines cfg ni rest (ni ++ F) ++ tail) from rfl]
      refine pairsOK_append_trim_nl hcl ?_
      refine packLines_pairs cfg ni hni rest (ni ++ F) tail
        (fun it hit => hits it (List.mem_cons_of_mem _ hit)) ?_ htail
      exact pairsOK_append _ _ hni hFpairs fun _ => hFhead

theorem structLines_pairs (cfg : pretty.Config) (ni : Str) (hni : pairsOK ni = true) :
    ∀ (fields : List Str) (cl tail : Str),
      (∀ f ∈ fields, pairsOK f = true ∧ f.head? ≠ some '\n') →
      pairsOK cl = true →
      pairsOK tail = true →
      pairsOK (pretty.structLines cfg ni fields cl ++ tail) = true
  | [], cl, tail, _, hcl, htail => by
    rw [pretty.structLines]
    by_cases hflush : ni.length < cl.length
    · rw [if_pos hflush, List.append_assoc, List.singleton_append]
      exact pairsOK_append_trim_nl hcl htail
    · rw [if_neg hflush, List.nil_append]
      exact htail
  | f :: rest, cl, tail, hfs, hcl, htail => by
    rw [pretty.structLines]
    set F := f ++ (if !rest.isEmpty || cfg.trailing_comma then lit ", " else []) with hF
    have hf := hfs f (List.mem_cons_self _ _)
    have hFpairs : pairsOK F = true := by
      rw [hF]
      refine pairsOK_append _ _ hf.1 ?_ ?_
      · split <;> decide
      · intro hl
        split <;> simp [lit]
    have hFhead : F.head? ≠ some '\n' := by
      rw [hF]
      refine head_append_ne hf.2 ?_
      split <;> simp [lit]
    rw [List.append_assoc]
    rw [show ('\n' :: pretty.structLines cfg ni rest (ni ++ F)) ++ tail
          = '\n' :: (pretty.structLines cfg ni rest (ni ++ F) ++ tail) from rfl]
    refine pairsOK_append_trim_nl hcl ?_
    refine structLines_pairs cfg ni hni rest (ni ++ F) tail
      (fun g hg => hfs g (List.mem_cons_of_mem _ hg)) ?_ htail
    exact pairsOK_append _ _ hni hFpairs fun _ => hFhead

end Celkit

namespace Celkit

theorem pairsOK_of_forall_ne_nl {s : Str} (h : ∀ x ∈ s, x ≠ '\n') : pairsOK s = true :=
  pairsOK_of_not_mem_nl s fun hm => h '\n' hm rfl

theorem composite_pos_eq (cfg : pretty.Config) (opn cls : Char) (items : List Str) (d : Nat)
    (h : (pretty.indent cfg d).length + (1 + pretty.sepLens items + 1)
        + (if 0 < d then 1 else 0) ≤ cfg.max_line_length) :
    pretty.composite cfg opn cls items d = opn :: List.intercalate (lit ", ") items ++ [cls] := by
  simp only [pretty.composite]
  rw [if_pos h]

theorem composite_neg_eq (cfg : pretty.Config) (opn cls : Char) (items : List Str) (d : Nat)
    (h : ¬((pretty.indent cfg d).length + (1 + pretty.sepLens items + 1)
        + (if 0 < d then 1 else 0) ≤ cfg.max_line_length)) :
    pretty.composite cfg opn cls items d = opn :: '\n'
      :: (pretty.packLines cfg (pretty.indent cfg (d + 1)) items (pretty.indent cfg (d + 1))
        ++ pretty.indent cfg d ++ [cls]) := by
  simp only [pretty.composite]
  rw [if_neg h]

theorem composite_pairs (cfg : pretty.Config) (opn cls : Char) (items : List Str) (d : Nat)
    (hopn_sp : opn ≠ ' ') (hopn_nl : opn ≠ '\n') (hcls_nl : cls ≠ '\n') (hcls_sp : cls ≠ ' ')
    (hits : ∀ it ∈ items, pairsOK it = true ∧ it.head? ≠ some '\n') :
    pairsOK (pretty.composite cfg opn cls items d) = true ∧
      (pretty.composite cfg opn cls items d).head? ≠ some '\n' ∧
      (pretty.composite cfg opn cls items d).getLast? ≠ some ' ' := by
  by_cases hfit : (pretty.indent cfg d).length + (1 + pretty.sepLens items + 1)
      + (if 0 < d then 1 else 0) ≤ cfg.max_line_length
  · rw [composite_pos_eq cfg opn cls items d hfit]
    have hint := intercalate_pairsOK (lit ", ") (by decide) (by decide) items hits
    refine ⟨?_, ?_, ?_⟩
    · refine pairsOK_append _ _ ?_ (show pairsOK [cls] = true from rfl) ?_
      · exact pairsOK_cons hint.1 fun hsp => absurd hsp hopn_sp
      · intro _
        simp only [List.head?_cons, ne_eq, Option.some.injEq]
        exact hcls_nl
    · simp only [List.cons_append, List.head?_cons, ne_eq, Option.some.injEq]
      exact hopn_nl
    · rw [List.getLast?_concat]
      simp only [ne_eq, Option.some.injEq]
      exact hcls_sp
  · rw [composite_neg_eq cfg opn cls items d hfit]
    have htail : pairsOK (pretty.indent cfg d ++ [cls]) = true := by
      refine pairsOK_of_forall_ne_nl fun x hx => ?_
      rcases List.mem_append.mp hx with h1 | h1
      · rw [List.eq_of_mem_replicate h1]
        decide
      · rw [List.mem_singleton] at h1
        rw [h1]
        exact hcls_nl
    have hpack := packLines_pairs cfg (pretty.indent cfg (d + 1))
      (pairsOK_of_forall_ne_nl fun x hx => by
        rw [List.eq_of_mem_replicate hx]; decide)
      items (pretty.indent cfg (d + 1)) (pretty.indent cfg d ++ [cls]) hits
      (pairsOK_of_forall_ne_nl fun x hx => by
        rw [List.eq_of_mem_replicate hx]; decide)
      htail
    refine ⟨?_, ?_, ?_⟩
    · refine pairsOK_cons ?_ fun hsp => absurd hsp hopn_sp
      refine pairsOK_cons ?_ (by simp)
      rwa [← List.append_assoc] at hpack
    · simp only [List.head?_cons, ne_eq, Option.some.injEq]
      exact hopn_nl
    · rw [List.getLast?_cons_cons]
      rw [show ('\n' :: (pretty.packLines cfg (pretty.indent cfg (d + 1)) items
              (pretty.indent cfg (d + 1)) ++ pretty.indent cfg d ++ [cls]))
            = ('\n' :: (pretty.packLines cfg (pretty.indent cfg (d + 1)) items
              (pretty.indent cfg (d + 1)) ++ pretty.indent cfg d)) ++ [cls] from by simp]
      rw [List.getLast?_concat]
      simp only [ne_eq, Option.some.injEq]
      exact hcls_sp

end Celkit

namespace Celkit

theorem encode_array_cons (cfg : pretty.Config) (v : Value) (vs : List Value) (d : Nat) :
    pretty.encode_value cfg (.Array (v :: vs)) d
      = pretty.composite cfg '[' ']' (pretty.encode_children cfg (v :: vs) (d + 1)) d := rfl

theorem encode_tuple_cons (cfg : pretty.Config) (v : Value) (vs : List Value) (d : Nat) :
    pretty.encode_value cfg (.Tuple (v :: vs)) d
      = pretty.composite cfg '(' ')' (pretty.encode_children cfg (v :: vs) (d + 1)) d := rfl

theorem encode_object_cons (cfg : pretty.Config) (e : String × Value)
    (rest : List (String × Value)) (d : Nat) :
    pretty.encode_value cfg (.Object (e :: rest)) d
      = pretty.composite cfg '\x7b' '\x7d' (pretty.encode_entries cfg (e :: rest) (d + 1)) d := rfl

theorem encode_struct_cons (cfg : pretty.Config) (nm : String) (f : String × Value)
    (rest : List (String × Value)) (d : Nat) :
    pretty.encode_value cfg (.Struct nm (f :: rest)) d
      = lit "@(" ++ pretty.structLines cfg (pretty.indent cfg (d + 1))
          (pretty.encode_fields cfg (f :: rest) (d + 1)) (pretty.indent cfg (d + 1))
        ++ pretty.indent cfg d ++ [')'] := rfl

theorem head_cons_ne_nl {c : Char} (hc : c ≠ '\n') (s : Str) :
    (c :: s).head? ≠ some '\n' := by simp [hc]

mutual

theorem c9_value : ∀ (cfg : pretty.Config) (v : Value) (d : Nat), namesNlFree v = true →
    pairsOK (pretty.encode_value cfg v d) = true ∧
      (pretty.encode_value cfg v d).head? ≠ some '\n' ∧
      (pretty.encode_value cfg v d).getLast? ≠ some ' '
  | cfg, .Null, d, _ => by
    simp only [pretty.encode_value]
    exact ⟨by decide, by decide, by decide⟩
  | cfg, .Boolean b, d, _ => by
    simp only [pretty.encode_value]
    cases b <;> exact ⟨by decide, by decide, by decide⟩
  | cfg, .Number n, d, _ => by
    simp only [pretty.encode_value]
    exact ⟨pairsOK_of_forall_ne_nl fun x hx => (numberStr_chars hx).1,
      head_ne_of_forall fun x hx => (numberStr_chars hx).1,
      getLast_ne_of_forall fun x hx => (numberStr_chars hx).2⟩
  | cfg, .Text t, d, _ => by
    simp only [pretty.encode_value]
    refine ⟨?_, ?_, ?_⟩
    · refine pairsOK_of_forall_ne_nl fun x hx => ?_
      rcases List.mem_append.mp hx with h1 | h1
      · rcases List.mem_cons.mp h1 with h2 | h2
        · rw [h2]; decide
        · exact fun hc => nl_not_mem_escape_text t (hc ▸ h2)
      · rw [List.mem_singleton] at h1
        rw [h1]; decide
    · have hh : ('"' :: escape_text t ++ ['"']).head? = some '"' := rfl
      rw [hh]; decide
    · rw [List.getLast?_concat]; decide
  | cfg, .Array a, d, h => by
    cases a with
    | nil =>
      rw [show pretty.encode_value cfg (.Array []) d = lit "[]" from rfl]
      exact ⟨by decide, by decide, by decide⟩
    | cons v vs =>
      rw [encode_array_cons]
      exact composite_pairs cfg '[' ']' _ d (by decide) (by decide) (by decide) (by decide)
        (c9_children cfg (v :: vs) (d + 1) h)
  | cfg, .Tuple t, d, h => by
    cases t with
    | nil =>
      rw [show pretty.encode_value cfg (.Tuple []) d = lit "()" from rfl]
      exact ⟨by decide, by decide, by decide⟩
    | cons v vs =>
      rw [encode_tuple_cons]
      exact composite_pairs cfg '(' ')' _ d (by decide) (by decide) (by decide) (by decide)
        (c9_children cfg (v :: vs) (d + 1) h)
  | cfg, .Object o, d, h => by
    cases o with
    | nil =>
      rw [show pretty.encode_value cfg (.Object []) d = lit "\x7b\x7d" from rfl]
      exact ⟨by decide, by decide, by decide⟩
    | cons e rest =>
      rw [encode_object_cons]
      exact composite_pairs cfg '\x7b' '\x7d' _ d (by decide) (by decide) (by decide) (by decide)
        (c9_entries cfg (e :: rest) (d + 1) h)
  | cfg, .Struct nm s, d, h => by
    cases s with
    | nil =>
      rw [show pretty.encode_value cfg (.Struct nm []) d = lit "@()" from rfl]
      exact ⟨by decide, by decide, by decide⟩
    | cons f rest =>
      have hfields := c9_fields cfg (f :: rest) (d + 1) h
      rw [encode_struct_cons]
      refine ⟨?_, ?_, ?_⟩
      · rw [List.append_assoc, List.append_assoc]
        refine pairsOK_append _ _ (by decide) ?_ fun hl => absurd hl (by decide)
        refine structLines_pairs cfg (pretty.indent cfg (d + 1))
          (pairsOK_of_forall_ne_nl fun x hx => by
            rw [List.eq_of_mem_replicate hx]; decide)
          (pretty.encode_fields cfg (f :: rest) (d + 1)) (pretty.indent cfg (d + 1))
          (pretty.indent cfg d ++ [')']) hfields
          (pairsOK_of_forall_ne_nl fun x hx => by
            rw [List.eq_of_mem_replicate hx]; decide) ?_
        refine pairsOK_of_forall_ne_nl fun x hx => ?_
        rcases List.mem_append.mp hx with h1 | h1
        · rw [List.eq_of_mem_replicate h1]; decide
        · rw [List.mem_singleton] at h1
          rw [h1]; decide
      · have hh : (lit "@(" ++ pretty.structLines cfg (pretty.indent cfg (d + 1))
            (pretty.encode_fields cfg (f :: rest) (d + 1)) (pretty.indent cfg (d + 1))
            ++ pretty.indent cfg d ++ [')']).head? = some '@' := rfl
        rw [hh]; decide
      · rw [List.getLast?_concat]; decide

theorem c9_children : ∀ (cfg : pretty.Config) (l : List Value) (d : Nat),
    namesNlFreeList l = true →
    ∀ s ∈ pretty.encode_children cfg l d, pairsOK s = true ∧ s.head? ≠ some '\n'
  | cfg, [], d, _, s, hs => by simp [pretty.encode_children] at hs
  | cfg, v :: vs, d, h, s, hs => by
    rw [namesNlFreeList, Bool.and_eq_true] at h
    simp only [pretty.encode_children] at hs
    rcases List.mem_cons.mp hs with h1 | h1
    · subst h1
      exact ⟨(c9_value cfg v d h.1).1, (c9_value cfg v d h.1).2.1⟩
    · exact c9_children cfg vs d h.2 s h1

theorem c9_entries : ∀ (cfg : pretty.Config) (o : List (String × Value)) (d : Nat),
    namesNlFreeEntries o = true →
    ∀ s ∈ pretty.encode_entries cfg o d, pairsOK s = true ∧ s.head? ≠ some '\n'
  | cfg, [], d, _, s, hs => by simp [pretty.encode_entries] at hs
  | cfg, (k, v) :: rest, d, h, s, hs => by
    rw [namesNlFreeEntries, Bool.and_eq_true] at h
    have hv := c9_value cfg v d h.1
    simp only [pretty.encode_entries] at hs
    rcases List.mem_cons.mp hs with h1 | h1
    · subst h1
      constructor
      · refine pairsOK_append _ _ ?_ ?_ fun _ => head_cons_ne_nl (by decide) _
        · refine pairsOK_of_forall_ne_nl fun x hx => ?_
          rcases List.mem_cons.mp hx with h2 | h2
          · rw [h2]; decide
          · exact fun hc => nl_not_mem_escape_text k (hc ▸ h2)
        · refine pairsOK_cons ?_ fun hc => absurd hc (by decide)
          refine pairsOK_cons ?_ fun hc => absurd hc (by decide)
          exact pairsOK_cons hv.1 fun _ => hv.2.1
      · have hh : (('"' :: escape_text k) ++ '"' :: ':' :: ' '
            :: pretty.encode_value cfg v d).head? = some '"' := rfl
        rw [hh]; decide
    · exact c9_entries cfg rest d h.2 s h1

theorem c9_fields : ∀ (cfg : pretty.Config) (fs : List (String × Value)) (d : Nat),
    namesNlFreeFields fs = true →
    ∀ s ∈ pretty.encode_fields cfg fs d, pairsOK s = true ∧ s.head? ≠ some '\n'
  | cfg, [], d, _, s, hs => by simp [pretty.encode_fields] at hs
  | cfg, (k, v) :: rest, d, h, s, hs => by
    rw [namesNlFreeFields, Bool.and_eq_true] at h
    have hkv := h.1
    rw [Bool.and_eq_true] at hkv
    have hknl : ∀ x ∈ k.data, x ≠ '\n' :=
      fun x hx hxeq => all_ne_nl_of_all_bne hkv.1 (hxeq ▸ hx)
    have hv := c9_value cfg v d hkv.2
    simp only [pretty.encode_fields] at hs
    rcases List.mem_cons.mp hs with h1 | h1
    · subst h1
      constructor
      · refine pairsOK_append _ _ (pairsOK_of_forall_ne_nl hknl) ?_
          fun _ => head_cons_ne_nl (by decide) _
        refine pairsOK_cons ?_ fun _ => head_cons_ne_nl (by decide) _
        refine pairsOK_cons ?_ fun hc => absurd hc (by decide)
        exact pairsOK_cons hv.1 fun _ => hv.2.1
      · exact head_append_ne (head_ne_of_forall hknl) (head_cons_ne_nl (by decide) _)
    · exact c9_fields cfg rest d h.2 s h1

end

end Celkit

namespace Celkit

theorem pretty_field_ne_nil (cfg : pretty.Config) (fs : List (String × Value)) (d : Nat) :
    ∀ f ∈ pretty.encode_fields cfg fs d, f ≠ [] := by
  rw [pretty_encode_fields_eq]
  intro f hf
  rcases List.mem_map.mp hf with ⟨⟨k, v⟩, -, rfl⟩
  simp

theorem structLines_aux (cfg : pretty.Config) (ni : Str) :
    ∀ (fs : List Str) (cl : Str), ni.length < cl.length → (∀ f ∈ fs, f ≠ []) →
      pretty.structLines cfg ni fs cl =
        trimEnd cl ++ '\n' :: (mapLast
          (fun f => trimEnd (ni ++ (f ++ lit ", ")) ++ ['\n'])
          (fun f => trimEnd (ni ++ (f ++ if cfg.trailing_comma then lit ", " else [])) ++ ['\n'])
          fs).flatten
  | [], cl, hlt, _ => by
    rw [pretty.structLines, if_pos hlt]
    simp [mapLast]
  | [f], cl, hlt, hfs => by
    have hf : f ≠ [] := hfs f (by simp)
    rw [pretty.structLines]
    simp only [List.isEmpty_nil, Bool.not_true, Bool.false_or]
    rw [pretty.structLines]
    rw [if_pos ?hpos]
    case hpos =>
      rw [List.length_append, List.length_append]
      have : 0 < f.length := List.length_pos.mpr hf
      omega
    simp only [mapLast, List.flatten]
    rw [List.append_assoc, List.append_nil]
  | f :: g :: rest, cl, hlt, hfs => by
    have hf : f ≠ [] := hfs f (by simp)
    rw [pretty.structLines]
    rw [if_pos (by simp : (!(g :: rest).isEmpty || cfg.trailing_comma) = true)]
    rw [structLines_aux cfg ni (g :: rest) (ni ++ (f ++ lit ", "))
      (by
        rw [List.length_append, List.length_append]
        have : 0 < f.length := List.length_pos.mpr hf
        omega)
      (fun x hx => hfs x (List.mem_cons_of_mem _ hx))]
    simp [mapLast, List.append_assoc]

theorem structLines_top (cfg : pretty.Config) (d : Nat) :
    ∀ fs : List Str, (∀ f ∈ fs, f ≠ []) → fs ≠ [] →
      pretty.structLines cfg (pretty.indent cfg (d + 1)) fs (pretty.indent cfg (d + 1)) =
        '\n' :: (mapLast
          (fun f => trimEnd (pretty.indent cfg (d + 1) ++ (f ++ lit ", ")) ++ ['\n'])
          (fun f => trimEnd (pretty.indent cfg (d + 1)
            ++ (f ++ if cfg.trailing_comma then lit ", " else [])) ++ ['\n'])
          fs).flatten
  | [], _, hne => absurd rfl hne
  | [f], hfs, _ => by
    have hf : f ≠ [] := hfs f (by simp)
    rw [pretty.structLines]
    simp only [List.isEmpty_nil, Bool.not_true, Bool.false_or]
    rw [pretty.structLines]
    rw [if_pos ?hpos]
    case hpos =>
      rw [List.length_append, List.length_append]
      have : 0 < f.length := List.length_pos.mpr hf
      omega
    rw [pretty.indent, trimEnd_replicate_space]
    simp only [mapLast, List.flatten, List.nil_append]
    rw [List.append_nil]
  | f :: g :: rest, hfs, _ => by
    have hf : f ≠ [] := hfs f (by simp)
    rw [pretty.structLines]
    rw [if_pos (by simp : (!(g :: rest).isEmpty || cfg.trailing_comma) = true)]
    rw [structLines_aux cfg (pretty.indent cfg (d + 1)) (g :: rest)
      (pretty.indent cfg (d + 1) ++ (f ++ lit ", "))
      (by
        rw [List.length_append, List.length_append]
        have : 0 < f.length := List.length_pos.mpr hf
        omega)
      (fun x hx => hfs x (List.mem_cons_of_mem _ hx))]
    rw [pretty.indent, trimEnd_replicate_space]
    simp [mapLast, List.append_assoc]

end Celkit

namespace Celkit

/-- Claim C1, counterexample to the claim as stated: with `max_line_length = 10`
(indent 2, trailing comma on), the array `["12345678"]` has a single rendered
child of exactly 10 characters — no child is longer than `L` — yet the emitted
line `  "12345678",` has 13 characters, exceeding `L`:
the indent and the separator are not covered by the claim's hypothesis. -/
theorem c1_counterexample :
    (∀ s ∈ pretty.encode_children ⟨2, 10, true⟩ [Value.Text "12345678"] 1, s.length ≤ 10) ∧
      ∃ l ∈ splitNl (pretty.encode_value ⟨2, 10, true⟩ (.Array [Value.Text "12345678"]) 0),
        10 < l.length := by
  constructor
  · decide
  · decide

/-- Claim C1 (amended): for every non-empty composite (Array, Tuple or Object)
pretty-encoded with `max_line_length = L` at depth `d`, if every rendered child
string `s` satisfies `indent(d+1).length + s.length + 2 ≤ L` (so that a child
fits on a fresh packed line together with its indent and separator), then no
line of the emitted output exceeds `L` characters. -/
theorem c1_width_bound (cfg : pretty.Config) (d : Nat) :
    (∀ a : List Value, a ≠ [] →
      (∀ s ∈ pretty.encode_children cfg a (d + 1),
        (pretty.indent cfg (d + 1)).length + s.length + 2 ≤ cfg.max_line_length) →
      ∀ l ∈ splitNl (pretty.encode_value cfg (.Array a) d),
        l.length ≤ cfg.max_line_length) ∧
    (∀ t : List Value, t ≠ [] →
      (∀ s ∈ pretty.encode_children cfg t (d + 1),
        (pretty.indent cfg (d + 1)).length + s.length + 2 ≤ cfg.max_line_length) →
      ∀ l ∈ splitNl (pretty.encode_value cfg (.Tuple t) d),
        l.length ≤ cfg.max_line_length) ∧
    (∀ o : List (String × Value), o ≠ [] →
      (∀ s ∈ pretty.encode_entries cfg o (d + 1),
        (pretty.indent cfg (d + 1)).length + s.length + 2 ≤ cfg.max_line_length) →
      ∀ l ∈ splitNl (pretty.encode_value cfg (.Object o) d),
        l.length ≤ cfg.max_line_length) := by
  refine ⟨?_, ?_, ?_⟩
  · intro a ha hs
    cases a with
    | nil => exact absurd rfl ha
    | cons v vs =>
      rw [encode_array_cons]
      exact composite_lines_le cfg '[' ']' _ d (by decide) (by decide)
        (by rw [pretty_encode_children_eq]; simp) hs
  · intro t ht hs
    cases t with
    | nil => exact absurd rfl ht
    | cons v vs =>
      rw [encode_tuple_cons]
      exact composite_lines_le cfg '(' ')' _ d (by decide) (by decide)
        (by rw [pretty_encode_children_eq]; simp) hs
  · intro o ho hs
    cases o with
    | nil => exact absurd rfl ho
    | cons e rest =>
      rw [encode_object_cons]
      exact composite_lines_le cfg '\x7b' '\x7d' _ d (by decide) (by decide)
        (by rw [pretty_encode_entries_eq]; simp) hs

/-- Claim C1, witness: the amended theorem applied to the array `[null]` with
the default configuration. -/
theorem c1_width_bound_witness :
    (([Value.Null] : List Value) ≠ [] ∧
      (∀ s ∈ pretty.encode_children ⟨2, 100, true⟩ [Value.Null] 1,
        (pretty.indent ⟨2, 100, true⟩ 1).length + s.length + 2 ≤ 100)) ∧
      ∀ l ∈ splitNl (pretty.encode_value ⟨2, 100, true⟩ (.Array [Value.Null]) 0),
        l.length ≤ 100 :=
  ⟨⟨by simp, by decide⟩,
    (c1_width_bound ⟨2, 100, true⟩ 0).1 [Value.Null] (by simp) (by decide)⟩

end Celkit

namespace Celkit

/-- Claim C2: a non-empty Array, Tuple or Object pretty-encoded at depth `d`
is emitted in single-line form (children joined by `", "`, no trailing
separator, wrapped in the delimiter pair) if and only if
`indent(d).length + 1 + sum of child lengths + 2*(count-1) + 1 + (1 if d > 0)`
is at most `max_line_length`; otherwise the multi-line greedy-packed form is
emitted. -/
theorem c2_single_line_condition (cfg : pretty.Config) (d : Nat) :
    (∀ a : List Value, a ≠ [] →
      pretty.encode_value cfg (.Array a) d =
        if (pretty.indent cfg d).length + 1
            + ((pretty.encode_children cfg a (d + 1)).map List.length).sum
            + 2 * ((pretty.encode_children cfg a (d + 1)).length - 1) + 1
            + (if 0 < d then 1 else 0) ≤ cfg.max_line_length
        then '[' :: List.intercalate (lit ", ") (pretty.encode_children cfg a (d + 1)) ++ [']']
        else '[' :: '\n'
          :: (pretty.packLines cfg (pretty.indent cfg (d + 1))
              (pretty.encode_children cfg a (d + 1)) (pretty.indent cfg (d + 1))
            ++ pretty.indent cfg d ++ [']'])) ∧
    (∀ t : List Value, t ≠ [] →
      pretty.encode_value cfg (.Tuple t) d =
        if (pretty.indent cfg d).length + 1
            + ((pretty.encode_children cfg t (d + 1)).map List.length).sum
            + 2 * ((pretty.encode_children cfg t (d + 1)).length - 1) + 1
            + (if 0 < d then 1 else 0) ≤ cfg.max_line_length
        then '(' :: List.intercalate (lit ", ") (pretty.encode_children cfg t (d + 1)) ++ [')']
        else '(' :: '\n'
          :: (pretty.packLines cfg (pretty.indent cfg (d + 1))
              (pretty.encode_children cfg t (d + 1)) (pretty.indent cfg (d + 1))
            ++ pretty.indent cfg d ++ [')'])) ∧
    (∀ o : List (String × Value), o ≠ [] →
      pretty.encode_value cfg (.Object o) d =
        if (pretty.indent cfg d).length + 1
            + ((pretty.encode_entries cfg o (d + 1)).map List.length).sum
            + 2 * ((pretty.encode_entries cfg o (d + 1)).length - 1) + 1
            + (if 0 < d then 1 else 0) ≤ cfg.max_line_length
        then '\x7b' :: List.intercalate (lit ", ") (pretty.encode_entries cfg o (d + 1)) ++ ['\x7d']
        else '\x7b' :: '\n'
          :: (pretty.packLines cfg (pretty.indent cfg (d + 1))
              (pretty.encode_entries cfg o (d + 1)) (pretty.indent cfg (d + 1))
            ++ pretty.indent cfg d ++ ['\x7d'])) := by
  refine ⟨?_, ?_, ?_⟩
  · intro a ha
    cases a with
    | nil => exact absurd rfl ha
    | cons v vs =>
      rw [encode_array_cons]
      exact composite_eq cfg '[' ']' _ d (by rw [pretty_encode_children_eq]; simp)
  · intro t ht
    cases t with
    | nil => exact absurd rfl ht
    | cons v vs =>
      rw [encode_tuple_cons]
      exact composite_eq cfg '(' ')' _ d (by rw [pretty_encode_children_eq]; simp)
  · intro o ho
    cases o with
    | nil => exact absurd rfl ho
    | cons e rest =>
      rw [encode_object_cons]
      exact composite_eq cfg '\x7b' '\x7d' _ d (by rw [pretty_encode_entries_eq]; simp)

/-- Claim C2, witness: the single-line condition evaluated on the array
`[null]` at depth 0 with the default configuration. -/
theorem c2_single_line_condition_witness :
    (([Value.Null] : List Value) ≠ []) ∧
      pretty.encode_value ⟨2, 100, true⟩ (.Array [Value.Null]) 0 =
        if (pretty.indent ⟨2, 100, true⟩ 0).length + 1
            + ((pretty.encode_children ⟨2, 100, true⟩ [Value.Null] 1).map List.length).sum
            + 2 * ((pretty.encode_children ⟨2, 100, true⟩ [Value.Null] 1).length - 1) + 1
            + (if 0 < 0 then 1 else 0) ≤ (100 : Nat)
        then '[' :: List.intercalate (lit ", ")
            (pretty.encode_children ⟨2, 100, true⟩ [Value.Null] 1) ++ [']']
        else '[' :: '\n'
          :: (pretty.packLines ⟨2, 100, true⟩ (pretty.indent ⟨2, 100, true⟩ 1)
              (pretty.encode_children ⟨2, 100, true⟩ [Value.Null] 1)
              (pretty.indent ⟨2, 100, true⟩ 1)
            ++ pretty.indent ⟨2, 100, true⟩ 0 ++ [']']) :=
  ⟨by simp, (c2_single_line_condition ⟨2, 100, true⟩ 0).1 [Value.Null] (by simp)⟩

end Celkit

namespace Celkit

/-- Claim C3, counterexample to the claim as stated: the control character
U+0001 escapes to `\u0001` with no braces — `format!("\u{:04x}", ..)` places
the hex digits directly after `\u` — whereas the claim requires the braced
form `\u` + brace + `0001` + brace. -/
theorem c3_counterexample :
    escape_text "\x01" = lit "\\u0001" ∧ escape_text "\x01" ≠ lit "\\u\x7b0001\x7d" := by
  constructor
  · decide
  · decide

/-- Claim C3 (amended): `escape_text` maps backspace, formfeed, newline,
carriage return and tab to the named escapes, backslash and double quote to
`\\` and `\"`, every other control character to `\u` followed by lower-case
hex zero-padded to 4 digits (no braces), and passes every other character —
including non-ASCII printable characters — through unchanged, character by
character. -/
theorem c3_escape_mapping :
    escapeChar '\x08' = lit "\\b" ∧
    escapeChar '\x0C' = lit "\\f" ∧
    escapeChar '\n' = lit "\\n" ∧
    escapeChar '\r' = lit "\\r" ∧
    escapeChar '\t' = lit "\\t" ∧
    escapeChar '\\' = lit "\\\\" ∧
    escapeChar '"' = lit "\\\"" ∧
    (∀ c : Char, isControl c = true →
      c ∉ (['\x08', '\x0C', '\n', '\r', '\t'] : List Char) →
      escapeChar c = lit "\\u" ++ hex4 c.toNat) ∧
    (∀ c : Char, isControl c = false → c ≠ '\\' → c ≠ '"' → escapeChar c = [c]) ∧
    hex4 0x01 = lit "0001" ∧
    hex4 0x9F = lit "009f" ∧
    (∀ s : String, escape_text s = (s.data.map escapeChar).flatten) := by
  refine ⟨by decide, by decide, by decide, by decide, by decide, by decide, by decide,
    ?_, ?_, by decide, by decide, fun s => rfl⟩
  · intro c hctl hnm
    have h1 : c ≠ '\x08' := fun hc => hnm (by simp [hc])
    have h2 : c ≠ '\x0C' := fun hc => hnm (by simp [hc])
    have h3 : c ≠ '\n' := fun hc => hnm (by simp [hc])
    have h4 : c ≠ '\r' := fun hc => hnm (by simp [hc])
    have h5 : c ≠ '\t' := fun hc => hnm (by simp [hc])
    have h6 : c ≠ '\\' := fun hc => by rw [hc] at hctl; exact absurd hctl (by decide)
    have h7 : c ≠ '"' := fun hc => by rw [hc] at hctl; exact absurd hctl (by decide)
    unfold escapeChar
    rw [if_neg h1, if_neg h2, if_neg h3, if_neg h4, if_neg h5, if_neg h6, if_neg h7,
      if_pos hctl]
  · intro c hctl hbs hq
    have h1 : c ≠ '\x08' := fun hc => by rw [hc] at hctl; exact absurd hctl (by decide)
    have h2 : c ≠ '\x0C' := fun hc => by rw [hc] at hctl; exact absurd hctl (by decide)
    have h3 : c ≠ '\n' := fun hc => by rw [hc] at hctl; exact absurd hctl (by decide)
    have h4 : c ≠ '\r' := fun hc => by rw [hc] at hctl; exact absurd hctl (by decide)
    have h5 : c ≠ '\t' := fun hc => by rw [hc] at hctl; exact absurd hctl (by decide)
    unfold escapeChar
    rw [if_neg h1, if_neg h2, if_neg h3, if_neg h4, if_neg h5, if_neg hbs, if_neg hq,
      if_neg (by simp [hctl])]

/-- Claim C3, witness: the amended mapping applied to the non-ASCII printable
character `é` (passed through unchanged) and to the control character U+0001
(escaped without braces). -/
theorem c3_escape_mapping_witness :
    escapeChar 'é' = ['é'] ∧ escapeChar '\x01' = lit "\\u" ++ hex4 0x01 :=
  ⟨c3_escape_mapping.2.2.2.2.2.2.2.2.1 'é' (by decide) (by decide) (by decide),
    c3_escape_mapping.2.2.2.2.2.2.2.1 '\x01' (by decide) (by decide)⟩

end Celkit

namespace Celkit

/-- Claim C4: both the compact and the pretty encoder render
`Value.Struct name fields` without the type name — the output is the `@( )`
form determined solely by the field map — so any two Struct values differing
only in their type name encode to identical text. -/
theorem c4_struct_name_dropped (n₁ n₂ : String) (fields : List (String × Value))
    (cfg : pretty.Config) (d : Nat) :
    mini.encode_value (.Struct n₁ fields) = mini.encode_value (.Struct n₂ fields) ∧
    pretty.encode_value cfg (.Struct n₁ fields) d
      = pretty.encode_value cfg (.Struct n₂ fields) d ∧
    mini.encode_value (.Struct n₁ fields)
      = lit "@(" ++ List.intercalate (lit ",") (mini.encode_fields fields) ++ [')'] :=
  ⟨rfl, rfl, rfl⟩

/-- Claim C5: a non-empty Struct pretty-encodes with every field on its own
line — each line is the trimmed `indent(d+1) ++ "name = value" ++ separator`,
where the separator is `", "` for every non-final field and for the final
field exactly when `trailing_comma` is enabled — wrapped between an opening
`@(` line and a closing `indent(d) ++ ")"` line, regardless of
`max_line_length`; in particular the output always contains a newline, so a
non-empty Struct is never collapsed to a single line. -/
theorem c5_struct_fields_each_line (cfg : pretty.Config) (nm : String)
    (fields : List (String × Value)) (d : Nat) (h : fields ≠ []) :
    pretty.encode_value cfg (.Struct nm fields) d =
      lit "@(" ++ ('\n' :: (mapLast
          (fun f => trimEnd (pretty.indent cfg (d + 1) ++ (f ++ lit ", ")) ++ ['\n'])
          (fun f => trimEnd (pretty.indent cfg (d + 1)
            ++ (f ++ if cfg.trailing_comma then lit ", " else [])) ++ ['\n'])
          (pretty.encode_fields cfg fields (d + 1))).flatten)
        ++ pretty.indent cfg d ++ [')'] ∧
    pretty.encode_fields cfg fields (d + 1) =
      fields.map (fun fld => fld.1.data ++ ' ' :: '=' :: ' '
        :: pretty.encode_value cfg fld.2 (d + 1)) ∧
    '\n' ∈ pretty.encode_value cfg (.Struct nm fields) d := by
  cases fields with
  | nil => exact absurd rfl h
  | cons f rest =>
    have hfne := pretty_field_ne_nil cfg (f :: rest) (d + 1)
    have hlistne : pretty.encode_fields cfg (f :: rest) (d + 1) ≠ [] := by
      rw [pretty_encode_fields_eq]
      simp
    refine ⟨?_, pretty_encode_fields_eq cfg (f :: rest) (d + 1), ?_⟩
    · rw [encode_struct_cons, structLines_top cfg d _ hfne hlistne]
    · rw [encode_struct_cons, structLines_top cfg d _ hfne hlistne]
      refine List.mem_append.mpr (Or.inl ?_)
      refine List.mem_append.mpr (Or.inl ?_)
      refine List.mem_append.mpr (Or.inr ?_)
      exact List.mem_cons_self _ _

/-- Claim C5, witness: the closed form evaluated on `@(x = null)` with the
default configuration: the newline is present, so the struct is multi-line. -/
theorem c5_struct_fields_witness :
    (([("x", Value.Null)] : List (String × Value)) ≠ []) ∧
      '\n' ∈ pretty.encode_value ⟨2, 100, true⟩ (.Struct "P" [("x", Value.Null)]) 0 :=
  ⟨by simp,
    (c5_struct_fields_each_line ⟨2, 100, true⟩ "P" [("x", Value.Null)] 0 (by simp)).2.2⟩

/-- Claim C6: compact Object encoding emits the brace pair around the entries
rendered as escaped-and-quoted key, colon, compact value, joined by bare
commas with no whitespace, in the sorted key order the `BTreeMap` maintains:
inserting `b:1` then `a:2` (or `a:2` then `b:1`) both encode to
`{"a":2,"b":1}`, and the empty Object encodes to `{}`. -/
theorem c6_compact_object (o : List (String × Value)) :
    mini.encode_value
        (.Object (mapInsert "b" (.Number (.u8 1)) (mapInsert "a" (.Number (.u8 2)) [])))
      = lit "\x7b\"a\":2,\"b\":1\x7d" ∧
    mini.encode_value
        (.Object (mapInsert "a" (.Number (.u8 2)) (mapInsert "b" (.Number (.u8 1)) [])))
      = lit "\x7b\"a\":2,\"b\":1\x7d" ∧
    mini.encode_value (.Object []) = lit "\x7b\x7d" ∧
    mini.encode_value (.Object o)
      = '\x7b' :: List.intercalate (lit ",") (o.map mini.entry) ++ ['\x7d'] := by
  refine ⟨by decide, by decide, by decide, ?_⟩
  simp only [mini.encode_value, mini_encode_entries_eq]

/-- Claim C7: displaying an Error with both line and column produces exactly
`Parse error at line {line}, column {column}: {message}`, with
`\nContext: {context}` appended exactly when a context is present, and
displaying an Error without a position produces exactly `Error: {message}`. -/
theorem c7_error_display (msg ctx : String) (octx : Option String) (l c : Nat) :
    Error.display ⟨msg, some ctx, some l, some c⟩
      = lit "Parse error at line " ++ natStr l ++ lit ", column " ++ natStr c
        ++ lit ": " ++ msg.data ++ ('\n' :: lit "Context: " ++ ctx.data) ∧
    Error.display ⟨msg, none, some l, some c⟩
      = lit "Parse error at line " ++ natStr l ++ lit ", column " ++ natStr c
        ++ lit ": " ++ msg.data ∧
    Error.display ⟨msg, octx, none, none⟩ = lit "Error: " ++ msg.data := by
  refine ⟨by simp [Error.display], by simp [Error.display], ?_⟩
  cases octx <;> rfl

/-- Claim C8, counterexample to the claim as stated: struct field names are
emitted raw by the compact encoder, so a field name containing a newline puts
a literal newline into the output. -/
theorem c8_counterexample :
    '\n' ∈ mini.encode_value (.Struct "P" [("a\nb", Value.Null)]) := by decide

/-- Claim C8 (amended): for every Value whose struct field names contain no
newline, the compact encoder's output contains no newline character: text
and object keys are escaped, numbers and the structural syntax introduce no
whitespace, so compact output is a single line. -/
theorem c8_compact_no_newline (v : Value) (h : namesNlFree v = true) :
    '\n' ∉ mini.encode_value v := c8_value v h

/-- Claim C8, witness: the compact encoding of `{"b":1}` contains no
newline. -/
theorem c8_compact_no_newline_witness :
    namesNlFree (.Object (mapInsert "b" (.Number (.u8 1)) [])) = true ∧
      '\n' ∉ mini.encode_value (.Object (mapInsert "b" (.Number (.u8 1)) [])) :=
  ⟨by decide, c8_compact_no_newline _ (by decide)⟩

/-- Claim C9, counterexample to the claim as stated: struct field names are
emitted raw by the pretty encoder, so a field name containing a space
followed by a newline produces an output line that ends in a space. -/
theorem c9_counterexample :
    ∃ l ∈ splitNl (pretty.encode_value ⟨2, 100, true⟩ (.Struct "P" [("a \nb", Value.Null)]) 0),
      l.getLast? = some ' ' := by decide

/-- Claim C9 (amended): for every Value whose struct field names contain no
newline, no line of the pretty encoder's output ends in a space: every
flushed line is trimmed of trailing whitespace before its newline, including
the separator space after the last element when `trailing_comma` is
enabled. -/
theorem c9_no_trailing_space (cfg : pretty.Config) (v : Value) (d : Nat)
    (h : namesNlFree v = true) :
    ∀ l ∈ splitNl (pretty.encode_value cfg v d), l.getLast? ≠ some ' ' := by
  have hv := c9_value cfg v d h
  exact lines_no_space_end _ hv.1 hv.2.2

/-- Claim C9, witness: the array `["a b"]` pretty-encoded with
`max_line_length = 4` wraps into several lines (with the trailing-comma
separator on the last element) and none of them ends in a space. -/
theorem c9_no_trailing_space_witness :
    namesNlFree (.Array [Value.Text "a b"]) = true ∧
      ∀ l ∈ splitNl (pretty.encode_value ⟨2, 4, true⟩ (.Array [Value.Text "a b"]) 0),
        l.getLast? ≠ some ' ' :=
  ⟨by decide, c9_no_trailing_space ⟨2, 4, true⟩ _ 0 (by decide)⟩

/-- Claim C10: an Error in which exactly one of line and column is set is
displayed in the non-positional form `Error: {message}`; the positional form
requires both. -/
theorem c10_partial_position (msg : String) (ctx : Option String) (l c : Nat) :
    Error.display ⟨msg, ctx, some l, none⟩ = lit "Error: " ++ msg.data ∧
    Error.display ⟨msg, ctx, none, some c⟩ = lit "Error: " ++ msg.data := by
  constructor <;> rfl

end Celkit
